import Mathlib

/-!
Verification of the lebab document-translation pipeline (src/lebab.py) and the
dataclass JSON round-trip (src/jsontest.py).

Python strings are modelled as lists of characters (`LStr`), so that the
delimiter join/split used by the pipeline is a plain structurally recursive
function on lists.  The external LLM (ChatOpenAI.ainvoke) is modelled as an
oracle function returning either a response content string or an exception
value (`Except`).  Document containers (python-docx, python-pptx) are modelled
by the data the extractor reads from them: the list of paragraph texts of a
docx document, and the list of per-slide shape texts of a pptx presentation.
-/

set_option autoImplicit false

namespace Lebab

/-- Model of a Python string: a finite sequence of characters. -/
abbrev LStr := List Char

/-- MAX_CHUNK_SIZE from lebab.py: maximum estimated character count per
translation request. -/
def MAX_CHUNK_SIZE : Nat := 10000

/-- The delimiter used by process_translation to join block texts and to
re-split the translated chunk: the 5-character string of a newline, three
dashes and a newline. -/
def DELIM : LStr := ['\n', '-', '-', '-', '\n']

/-- Model of the external LLM (ChatOpenAI.ainvoke): given the prompt, either
returns the response content or fails with an exception value. -/
abbrev Llm := LStr → Except LStr LStr

/-- The prompt built by translate_text_async from the languages and the text. -/
def mkPrompt (input_lang output_lang text : LStr) : LStr :=
  "Translate the following text from ".data ++ input_lang
    ++ " to ".data ++ output_lang
    ++ " while preserving formatting and document structure:\n\n".data ++ text

/-- Model of translate_text_async from lebab.py: build the prompt, call the
LLM; on success return the response content, and on any exception print an
error message and return the original text as a fallback.  The printed message
is not modelled; the returned value is. -/
def translate_text_async (text input_lang output_lang : LStr) (llm : Llm) : LStr :=
  match llm (mkPrompt input_lang output_lang text) with
  | Except.ok content => content
  | Except.error _ => text

/-- A block as read by a translator: its address in the document (the
paragraph index for docx, the slide and shape indices for pptx; the address
type is a parameter) and its text.  Corresponds to the dict built by
read_document before any translated_text key is set. -/
structure Block (α : Type) where
  address : α
  text : LStr
deriving DecidableEq, Repr

/-- A block after reconciliation: the same address and source text, with the
translated_text key set.  Corresponds to the dict after process_translation
assigns b["translated_text"]. -/
structure TBlock (α : Type) where
  address : α
  text : LStr
  translated_text : LStr
deriving DecidableEq, Repr

/-- Model of DocxTranslator.read_document: every paragraph of the document,
in order, becomes a block addressed by its paragraph index.  The source
appends every paragraph unconditionally (no emptiness or whitespace check):
self.blocks.append for each i, para in enumerate(self.doc.paragraphs).
The constant "type": "paragraph" tag is not modelled: every docx block is a
paragraph block. -/
def DocxTranslator.read_document (paragraphs : List LStr) : List (Block Nat) :=
  paragraphs.enum.map (fun p => ⟨p.1, p.2⟩)

/-- Model of PptxTranslator.read_document: iterate over slides, and within a
slide over shapes; a shape contributes a block iff it has a text attribute
(modelled by Option) and its text is truthy, i.e. a non-empty string.  The
address is the pair of slide index and shape index. -/
def PptxTranslator.read_document (slides : List (List (Option LStr))) :
    List (Block (Nat × Nat)) :=
  slides.enum.flatMap (fun s =>
    s.2.enum.filterMap (fun sh =>
      match sh.2 with
      | some t => if t ≠ [] then some (⟨(s.1, sh.1), t⟩ : Block (Nat × Nat)) else none
      | none => none))

/-- The whitespace characters removed by the Python str.strip method (used to
state the trimming property the spec claims of the extractor). -/
def pySpace : List Char := [' ', '\t', '\n', '\r', '\x0b', '\x0c']

/-- Model of the Python str.strip method: remove leading and trailing
whitespace. -/
def pyStrip (s : LStr) : LStr :=
  ((s.dropWhile (fun c => c ∈ pySpace)).reverse.dropWhile (fun c => c ∈ pySpace)).reverse

/-- Model of the Python join on the fixed delimiter: the join of the empty
list is the empty string, of a one-element list that element, and otherwise
head, delimiter, and the join of the tail. -/
def joinDelim : List LStr → LStr
  | [] => []
  | [t] => t
  | t :: ts => t ++ DELIM ++ joinDelim ts

/-- Worker for the Python str.split on the fixed delimiter: scan left to
right; when the next five characters are the delimiter, close the current
part (held reversed in acc) and continue after them; otherwise move one
character into acc.  This is the semantics of translated_chunk.split for a
non-empty separator: non-overlapping occurrences found left to right. -/
def splitDelimGo : LStr → LStr → List LStr
  | '\n' :: '-' :: '-' :: '-' :: '\n' :: rest, acc => acc.reverse :: splitDelimGo rest []
  | c :: rest, acc => splitDelimGo rest (c :: acc)
  | [], acc => [acc.reverse]

/-- Model of translated_chunk.split on the delimiter. -/
def splitDelim (s : LStr) : List LStr := splitDelimGo s []

/-- The request text sent for one chunk: the block texts joined with the
delimiter, as built by chunk_text in process_translation. -/
def requestText {α : Type} (chunk : List (Block α)) : LStr :=
  joinDelim (chunk.map Block.text)

/-- The parts the code maps back onto the blocks of a chunk: the split of
whatever translate_text_async returned for the chunk request. -/
def chunkParts {α : Type} (llm : Llm) (il ol : LStr) (chunk : List (Block α)) : List LStr :=
  splitDelim (translate_text_async (requestText chunk) il ol llm)

/-- Model of the mismatch loop in process_translation:
for i, b in enumerate(current_chunk):
  b["translated_text"] = translated_parts[i] if i < len(translated_parts) else b["text"].
Walking both lists positionally, a block takes the part at its position when
one exists and otherwise falls back to its own text. -/
def assignAt {α : Type} : List (Block α) → List LStr → List (TBlock α)
  | [], _ => []
  | b :: bs, [] => ⟨b.address, b.text, b.text⟩ :: assignAt bs []
  | b :: bs, p :: ps => ⟨b.address, b.text, p⟩ :: assignAt bs ps

/-- Model of the per-chunk translate-and-reconcile step of process_translation
(the body duplicated at the flush inside the loop and after it): join the
block texts, call translate_text_async, split the result; if the part count
differs from the block count, print a warning (the Bool component) and assign
positionally with fallback to the block text; otherwise zip blocks with parts.
The returned list is the chunk extended onto translated_blocks. -/
def processChunk {α : Type} (llm : Llm) (il ol : LStr) (chunk : List (Block α)) :
    List (TBlock α) × Bool :=
  let parts := chunkParts llm il ol chunk
  if parts.length ≠ chunk.length then
    (assignAt chunk parts, true)
  else
    ((chunk.zip parts).map (fun p => ⟨p.1.address, p.1.text, p.2⟩), false)

/-- The size of a chunk as accumulated by current_chunk_size: the sum of the
lengths of its block texts. -/
def chunkSize {α : Type} (c : List (Block α)) : Nat :=
  (c.map (fun b => b.text.length)).sum

/-- The chunk-boundary skeleton of the loop in process_translation: the same
walk over the blocks with current_chunk and current_chunk_size, recording the
chunks that get flushed instead of translating them.  A flush happens when
current_chunk is non-empty and adding the next block would exceed
MAX_CHUNK_SIZE; the block then starts the new chunk; the final non-empty
current_chunk is flushed after the loop. -/
def planChunksGo {α : Type} : List (Block α) → List (Block α) → Nat → List (List (Block α))
  | [], cur, _ => if cur.isEmpty then [] else [cur]
  | b :: rest, cur, size =>
    if cur.isEmpty = false ∧ size + b.text.length > MAX_CHUNK_SIZE then
      cur :: planChunksGo rest [b] b.text.length
    else
      planChunksGo rest (cur ++ [b]) (size + b.text.length)

/-- The sequence of chunks process_translation forms from a block sequence. -/
def planChunks {α : Type} (blocks : List (Block α)) : List (List (Block α)) :=
  planChunksGo blocks [] 0

/-- The loop of process_translation: accumulate blocks into current_chunk,
flushing (translating and reconciling) exactly where planChunksGo closes a
chunk; returns the accumulated translated_blocks together with the number of
translate_text_async calls made. -/
def processGo {α : Type} (llm : Llm) (il ol : LStr) :
    List (Block α) → List (Block α) → Nat → List (TBlock α) × Nat
  | [], cur, _ =>
    if cur.isEmpty then ([], 0) else ((processChunk llm il ol cur).1, 1)
  | b :: rest, cur, size =>
    if cur.isEmpty = false ∧ size + b.text.length > MAX_CHUNK_SIZE then
      let r := processGo llm il ol rest [b] b.text.length
      ((processChunk llm il ol cur).1 ++ r.1, r.2 + 1)
    else
      processGo llm il ol rest (cur ++ [b]) (size + b.text.length)

/-- Model of DocxTranslator.update_blocks and PptxTranslator.update_blocks:
walk translated_blocks in order and for each block write its translated_text
at its address; the result is the ordered sequence of write operations applied
to the document model. -/
def update_blocks {α : Type} (tbs : List (TBlock α)) : List (α × LStr) :=
  tbs.map (fun b => (b.address, b.translated_text))

/-- The observable outcome of a process_translation run: either the early
return with the "No text blocks found for translation." message, or a
completed run. -/
inductive Outcome where
  | nothingToTranslate
  | completed
deriving DecidableEq, Repr

/-- What a process_translation run did: the accumulated translated blocks,
the number of oracle (translate_text_async) calls, the write operations of the
final update_blocks pass, and the outcome. -/
structure RunResult (α : Type) where
  translated : List (TBlock α)
  oracleCalls : Nat
  writes : List (α × LStr)
  outcome : Outcome
deriving DecidableEq, Repr

/-- Model of process_translation from lebab.py, after read_document has
produced the block sequence: if there are no blocks, return at once with the
nothing-to-translate message, no oracle call and no write; otherwise run the
chunking loop and finish with the update_blocks pass over the accumulated
translated blocks. -/
def process_translation {α : Type} (llm : Llm) (il ol : LStr)
    (blocks : List (Block α)) : RunResult α :=
  if blocks.isEmpty then
    ⟨[], 0, [], Outcome.nothingToTranslate⟩
  else
    let r := processGo llm il ol blocks [] 0
    ⟨r.1, r.2, update_blocks r.1, Outcome.completed⟩

end Lebab

namespace Jsontest

/-- A JSON-primitive Python value as it occurs in a dataclass field: a string,
an int, a bool or None.  json.dumps followed by json.loads is the identity on
these. -/
inductive Prim where
  | pstr (s : String)
  | pint (n : Int)
  | pbool (b : Bool)
  | pnone
deriving DecidableEq, Repr

/-- A JSON value as produced by json.loads: a primitive or an object, i.e. a
dict, modelled as the ordered list of its key-value pairs (keys are unique in
a dict produced by json.loads). -/
inductive JsonVal where
  | jprim (p : Prim)
  | jobj (fields : List (String × JsonVal))
deriving Repr

/-- The shape of a dataclass whose fields are JSON-primitive values or nested
such dataclasses: for each field, its name and whether its annotated type is a
primitive type or again such a dataclass (what is_dataclass(field_type)
distinguishes in deserialize_dataclass). -/
inductive DCType where
  | prim
  | dc (sig : List (String × DCType))
deriving Repr

/-- A value of such a dataclass: a primitive, or an instance holding, in field
declaration order, the field names with their values.  Equality of these trees
is dataclass equality (field-by-field, in order). -/
inductive DCVal where
  | vprim (p : Prim)
  | inst (fields : List (String × DCVal))
deriving Repr

mutual

/-- Model of serialize_dataclass from jsontest.py composed with what
json.dumps does with its result: dataclasses.asdict turns an instance into a
dict, recursively turning nested dataclass values into dicts and keeping
primitives as they are. -/
def serialize_dataclass : DCVal → JsonVal
  | DCVal.vprim p => JsonVal.jprim p
  | DCVal.inst fs => JsonVal.jobj (serializeFields fs)

/-- asdict applied to the field list of an instance. -/
def serializeFields : List (String × DCVal) → List (String × JsonVal)
  | [] => []
  | (n, v) :: fs => (n, serialize_dataclass v) :: serializeFields fs

end

/-- Model of json.loads composed with json.dumps: the Python json round-trip
is the identity on JSON trees built from these primitives and string-keyed
objects. -/
def json_dumps_loads (v : JsonVal) : JsonVal := v

/-- Dict lookup, field_name in data / data[field_name], on the modelled dict:
the value at the first matching key. -/
def jlookup (name : String) : List (String × JsonVal) → Option JsonVal
  | [] => none
  | (m, v) :: rest => if name = m then some v else jlookup name rest

mutual

/-- Model of deserialize_dataclass from jsontest.py: for each field of the
dataclass, look its name up in the data dict; if present and the field type is
a dataclass, recursively deserialize, otherwise take the value as the
primitive it is; finally call the constructor with the collected arguments.
A missing field makes the constructor call fail (no dataclass in the source
has defaults), and a value that does not fit the expected shape is modelled as
failure; both are the none result. -/
def deserialize_dataclass : DCType → JsonVal → Option DCVal
  | DCType.prim, JsonVal.jprim p => some (DCVal.vprim p)
  | DCType.prim, JsonVal.jobj _ => none
  | DCType.dc sig, JsonVal.jobj data => (deserializeFields sig data).map DCVal.inst
  | DCType.dc _, JsonVal.jprim _ => none

/-- The loop over field_types.items() of deserialize_dataclass, collecting
constructor arguments from the data dict. -/
def deserializeFields :
    List (String × DCType) → List (String × JsonVal) → Option (List (String × DCVal))
  | [], _ => some []
  | (n, t) :: sig, data =>
    match jlookup n data with
    | none => none
    | some j =>
      match deserialize_dataclass t j, deserializeFields sig data with
      | some v, some rest => some ((n, v) :: rest)
      | _, _ => none

end

mutual

/-- A dataclass value conforms to a dataclass shape: primitives to the
primitive shape, and an instance to a dc shape when the field names agree in
order and each field value conforms to its field shape.  Every Python
dataclass instance of a class of shape t conforms to t. -/
def conforms : DCType → DCVal → Bool
  | DCType.prim, DCVal.vprim _ => true
  | DCType.dc sig, DCVal.inst fs => conformsFields sig fs
  | _, _ => false

/-- Field-list conformity: same names in the same order, values conforming. -/
def conformsFields : List (String × DCType) → List (String × DCVal) → Bool
  | [], [] => true
  | (n, t) :: sig, (m, v) :: fs => (n == m) && conforms t v && conformsFields sig fs
  | _, _ => false

end

/-- No name occurs twice in the list. -/
def distinctNames : List String → Bool
  | [] => true
  | n :: ns => (!ns.contains n) && distinctNames ns

mutual

/-- A well-formed dataclass shape: at every dc level the field names are
distinct, as Python guarantees for attribute names of a dataclass. -/
def wfType : DCType → Bool
  | DCType.prim => true
  | DCType.dc sig => distinctNames (sig.map Prod.fst) && wfSig sig

/-- Well-formedness of every field shape of a signature. -/
def wfSig : List (String × DCType) → Bool
  | [] => true
  | (_, t) :: sig => wfType t && wfSig sig

end

/-- The shape of the Example dataclass of jsontest.py: a str field name and a
field nested of dataclass ExampleNested, which has an int field value. -/
def exampleTy : DCType :=
  DCType.dc [("name", DCType.prim), ("nested", DCType.dc [("value", DCType.prim)])]

/-- The instance built in jsontest.py:
Example(name="Test", nested=ExampleNested(value=42)). -/
def exampleVal : DCVal :=
  DCVal.inst [("name", DCVal.vprim (Prim.pstr "Test")),
              ("nested", DCVal.inst [("value", DCVal.vprim (Prim.pint 42))])]

end Jsontest

namespace Lebab

/-! Helper lemmas about the delimiter split and join. -/

theorem splitDelimGo_nil (acc : LStr) : splitDelimGo [] acc = [acc.reverse] := rfl

theorem splitDelimGo_delim (rest acc : LStr) :
    splitDelimGo ('\n' :: '-' :: '-' :: '-' :: '\n' :: rest) acc
      = acc.reverse :: splitDelimGo rest [] := rfl

theorem splitDelimGo_cons (c : Char) (rest acc : LStr) (h : c ≠ '\n') :
    splitDelimGo (c :: rest) acc = splitDelimGo rest (c :: acc) := by
  rw [splitDelimGo.eq_def]
  split
  · rename_i r e
    injection e with h1 _
    exact absurd h1 h
  · rename_i c2 r2 hno e
    injection e with e1 e2
    rw [e1, e2]
  · rename_i e
    exact absurd e (by simp)

theorem splitDelimGo_append (t : LStr) (ht : ∀ c ∈ t, c ≠ '\n') :
    ∀ acc rest : LStr, splitDelimGo (t ++ rest) acc = splitDelimGo rest (t.reverse ++ acc) := by
  induction t with
  | nil => intro acc rest; simp
  | cons c t ih =>
    intro acc rest
    have hc : c ≠ '\n' := ht c (by simp)
    have ht' : ∀ d ∈ t, d ≠ '\n' := fun d hd => ht d (by simp [hd])
    rw [List.cons_append, splitDelimGo_cons c _ _ hc, ih ht' (c :: acc) rest]
    simp

/-- Splitting the join recovers the parts when no part contains a newline
character: every occurrence of the delimiter in the joined text is then one of
the inserted separators. -/
theorem splitDelim_joinDelim (ts : List LStr) (hne : ts ≠ [])
    (h : ∀ t ∈ ts, ∀ c ∈ t, c ≠ '\n') : splitDelim (joinDelim ts) = ts := by
  induction ts with
  | nil => exact absurd rfl hne
  | cons t ts ih =>
    cases ts with
    | nil =>
      show splitDelimGo (joinDelim [t]) [] = [t]
      have hj : joinDelim [t] = t := rfl
      have h1 := splitDelimGo_append t (h t (by simp)) [] []
      rw [hj, ← List.append_nil t]
      rw [h1, splitDelimGo_nil]
      simp
    | cons t2 ts2 =>
      have hj : joinDelim (t :: t2 :: ts2) = t ++ (DELIM ++ joinDelim (t2 :: ts2)) := by
        show t ++ DELIM ++ joinDelim (t2 :: ts2) = _
        rw [List.append_assoc]
      show splitDelimGo (joinDelim (t :: t2 :: ts2)) [] = t :: t2 :: ts2
      rw [hj, splitDelimGo_append t (h t (by simp)) [] (DELIM ++ joinDelim (t2 :: ts2))]
      have hd : splitDelimGo (DELIM ++ joinDelim (t2 :: ts2)) (t.reverse ++ []) =
          (t.reverse ++ []).reverse :: splitDelimGo (joinDelim (t2 :: ts2)) [] :=
        splitDelimGo_delim _ _
      rw [hd]
      have ih' := ih (by simp) (fun u hu => h u (by simp [hu]))
      show _ :: splitDelim (joinDelim (t2 :: ts2)) = _
      rw [ih']
      simp

/-- The length of the joined request text: the sum of the part lengths plus
five characters of delimiter between consecutive parts. -/
theorem joinDelim_length (ts : List LStr) (hne : ts ≠ []) :
    (joinDelim ts).length = (ts.map List.length).sum + 5 * (ts.length - 1) := by
  induction ts with
  | nil => exact absurd rfl hne
  | cons t ts ih =>
    cases ts with
    | nil => simp [joinDelim]
    | cons t2 ts2 =>
      have hj : joinDelim (t :: t2 :: ts2) = t ++ DELIM ++ joinDelim (t2 :: ts2) := rfl
      have ih' := ih (by simp)
      rw [hj]
      simp only [List.length_append, ih', DELIM, List.map_cons, List.sum_cons,
        List.length_cons]
      simp only [List.length_cons, List.length_nil]
      omega

/-! Helper lemmas about the positional assignment of parts to blocks. -/

theorem assignAt_length {α : Type} (c : List (Block α)) :
    ∀ ps, (assignAt c ps).length = c.length := by
  induction c with
  | nil => intro ps; rfl
  | cons b bs ih => intro ps; cases ps <;> simp [assignAt, ih]

theorem assignAt_proj {α : Type} (c : List (Block α)) :
    ∀ ps, (assignAt c ps).map (fun tb => (tb.address, tb.text))
      = c.map (fun b => (b.address, b.text)) := by
  induction c with
  | nil => intro ps; rfl
  | cons b bs ih => intro ps; cases ps <;> simp [assignAt, ih]

theorem assignAt_getElem? {α : Type} (ck : List (Block α)) :
    ∀ (ps : List LStr) (i : Nat) (b : Block α), ck[i]? = some b →
      (assignAt ck ps)[i]? = some (⟨b.address, b.text, ps.getD i b.text⟩ : TBlock α) := by
  induction ck with
  | nil => intro ps i b h; simp at h
  | cons hd tl ih =>
    intro ps i b h
    cases ps with
    | nil =>
      cases i with
      | zero =>
        rw [List.getElem?_cons_zero] at h
        injection h with h; subst h
        simp [assignAt]
      | succ n =>
        rw [List.getElem?_cons_succ] at h
        show (assignAt (hd :: tl) [])[n + 1]? = _
        simp only [assignAt, List.getElem?_cons_succ]
        exact ih [] n b h
    | cons p ps' =>
      cases i with
      | zero =>
        rw [List.getElem?_cons_zero] at h
        injection h with h; subst h
        simp [assignAt]
      | succ n =>
        rw [List.getElem?_cons_succ] at h
        simp only [assignAt, List.getElem?_cons_succ, List.getD_cons_succ]
        exact ih ps' n b h

theorem assignAt_mem {α : Type} (c : List (Block α)) :
    ∀ ps, ∀ tb ∈ assignAt c ps, tb.translated_text ∈ ps ∨ tb.translated_text = tb.text := by
  induction c with
  | nil => intro ps tb h; simp [assignAt] at h
  | cons b bs ih =>
    intro ps tb h
    cases ps with
    | nil =>
      simp only [assignAt, List.mem_cons] at h
      rcases h with h | h
      · subst h; right; rfl
      · exact ih [] tb h
    | cons p ps' =>
      simp only [assignAt, List.mem_cons] at h
      rcases h with h | h
      · subst h; left; simp
      · rcases ih ps' tb h with h' | h'
        · left; simp [h']
        · right; exact h'

theorem assignAt_translated_of_length_eq {α : Type} (c : List (Block α)) :
    ∀ ps, ps.length = c.length →
      (assignAt c ps).map (fun tb => tb.translated_text) = ps := by
  induction c with
  | nil =>
    intro ps h
    rw [List.length_nil, List.length_eq_zero] at h
    subst h; rfl
  | cons b bs ih =>
    intro ps h
    cases ps with
    | nil => simp at h
    | cons p ps' =>
      simp only [List.length_cons, Nat.add_right_cancel_iff] at h
      simp [assignAt, ih ps' h]

theorem zip_map_eq_assignAt {α : Type} (c : List (Block α)) :
    ∀ ps, ps.length = c.length →
      (c.zip ps).map (fun p => (⟨p.1.address, p.1.text, p.2⟩ : TBlock α)) = assignAt c ps := by
  induction c with
  | nil =>
    intro ps h
    rw [List.length_nil, List.length_eq_zero] at h
    subst h; rfl
  | cons b bs ih =>
    intro ps h
    cases ps with
    | nil => simp at h
    | cons p ps' =>
      simp only [List.length_cons, Nat.add_right_cancel_iff] at h
      simp [List.zip_cons_cons, assignAt, ih ps' h]

/-- Both branches of the per-chunk reconciliation produce the positional
assignment with fallback: when the part count matches, the zip is that
assignment restricted to its always-present case. -/
theorem processChunk_fst {α : Type} (llm : Llm) (il ol : LStr) (c : List (Block α)) :
    (processChunk llm il ol c).1 = assignAt c (chunkParts llm il ol c) := by
  simp only [processChunk]
  split
  · rfl
  · rename_i h
    rw [Decidable.not_not] at h
    exact zip_map_eq_assignAt c _ h

theorem processChunk_warn {α : Type} (llm : Llm) (il ol : LStr) (c : List (Block α)) :
    (processChunk llm il ol c).2 = false ↔ (chunkParts llm il ol c).length = c.length := by
  simp only [processChunk]
  split
  · rename_i h; simp [h]
  · rename_i h; rw [Decidable.not_not] at h; simp [h]

theorem processChunk_length {α : Type} (llm : Llm) (il ol : LStr) (c : List (Block α)) :
    ((processChunk llm il ol c).1).length = c.length := by
  rw [processChunk_fst, assignAt_length]

/-! Helper lemmas about the chunking loop. -/

theorem chunkSize_append {α : Type} (l1 l2 : List (Block α)) :
    chunkSize (l1 ++ l2) = chunkSize l1 + chunkSize l2 := by
  simp [chunkSize]

theorem chunkSize_singleton {α : Type} (b : Block α) :
    chunkSize [b] = b.text.length := by
  simp [chunkSize]

theorem planChunksGo_flatten {α : Type} :
    ∀ (rest cur : List (Block α)) (size : Nat),
      (planChunksGo rest cur size).flatten = cur ++ rest := by
  intro rest
  induction rest with
  | nil =>
    intro cur size
    by_cases h : cur.isEmpty
    · simp [planChunksGo, h, List.isEmpty_iff.mp h]
    · simp [planChunksGo, h]
  | cons b rest ih =>
    intro cur size
    simp only [planChunksGo]
    split
    · simp [List.flatten_cons, ih]
    · rw [ih]; simp

theorem planChunksGo_sizes {α : Type} :
    ∀ (rest cur : List (Block α)) (size : Nat),
      (chunkSize cur ≤ MAX_CHUNK_SIZE ∨ cur.length = 1) →
      size = chunkSize cur →
      ∀ ck ∈ planChunksGo rest cur size,
        ck ≠ [] ∧ (chunkSize ck ≤ MAX_CHUNK_SIZE ∨ (ck.length = 1 ∧ MAX_CHUNK_SIZE < chunkSize ck)) := by
  intro rest
  induction rest with
  | nil =>
    intro cur size hinv hsize ck hck
    by_cases h : cur.isEmpty
    · simp [planChunksGo, h] at hck
    · simp only [planChunksGo, h, Bool.false_eq_true, if_false, List.mem_singleton] at hck
      subst hck
      refine ⟨fun hnil => by simp [hnil] at h, ?_⟩
      rcases hinv with h1 | h1
      · exact Or.inl h1
      · by_cases h2 : chunkSize ck ≤ MAX_CHUNK_SIZE
        · exact Or.inl h2
        · exact Or.inr ⟨h1, Nat.lt_of_not_le h2⟩
  | cons b rest ih =>
    intro cur size hinv hsize ck hck
    simp only [planChunksGo] at hck
    split at hck
    · rename_i hcond
      rcases List.mem_cons.mp hck with hck | hck
      · subst hck
        refine ⟨fun hnil => by simp [hnil] at hcond, ?_⟩
        rcases hinv with h1 | h1
        · exact Or.inl h1
        · by_cases h2 : chunkSize ck ≤ MAX_CHUNK_SIZE
          · exact Or.inl h2
          · exact Or.inr ⟨h1, Nat.lt_of_not_le h2⟩
      · exact ih [b] b.text.length (Or.inr rfl) (chunkSize_singleton b).symm ck hck
    · rename_i hcond
      refine ih (cur ++ [b]) (size + b.text.length) ?_ ?_ ck hck
      · rcases Decidable.not_and_iff_or_not.mp hcond with h1 | h1
        · have hc : cur = [] := by
            rcases List.isEmpty_iff.mp (Bool.of_not_eq_false h1) with h
            exact h
          subst hc
          exact Or.inr (by simp)
        · left
          rw [chunkSize_append, chunkSize_singleton, ← hsize]
          exact Nat.le_of_not_lt h1
      · rw [chunkSize_append, chunkSize_singleton, hsize]

theorem processGo_eq {α : Type} (llm : Llm) (il ol : LStr) :
    ∀ (rest cur : List (Block α)) (size : Nat),
      processGo llm il ol rest cur size
        = (((planChunksGo rest cur size).map (fun ck => (processChunk llm il ol ck).1)).flatten,
           (planChunksGo rest cur size).length) := by
  intro rest
  induction rest with
  | nil =>
    intro cur size
    by_cases h : cur.isEmpty <;> simp [processGo, planChunksGo, h]
  | cons b rest ih =>
    intro cur size
    simp only [processGo, planChunksGo]
    split
    · simp [ih]
    · exact ih _ _

theorem process_translation_translated {α : Type} (llm : Llm) (il ol : LStr)
    (blocks : List (Block α)) :
    (process_translation llm il ol blocks).translated
      = ((planChunks blocks).map (fun ck => (processChunk llm il ol ck).1)).flatten := by
  cases blocks with
  | nil => rfl
  | cons b bs =>
    have h1 : process_translation llm il ol (b :: bs)
        = ⟨(processGo llm il ol (b :: bs) [] 0).1, (processGo llm il ol (b :: bs) [] 0).2,
           update_blocks (processGo llm il ol (b :: bs) [] 0).1, Outcome.completed⟩ := rfl
    rw [h1, processGo_eq]
    rfl

theorem process_translation_writes {α : Type} (llm : Llm) (il ol : LStr)
    (blocks : List (Block α)) :
    (process_translation llm il ol blocks).writes
      = update_blocks (process_translation llm il ol blocks).translated := by
  cases blocks with
  | nil => rfl
  | cons b bs => rfl

theorem planChunks_flatten {α : Type} (blocks : List (Block α)) :
    (planChunks blocks).flatten = blocks := by
  simpa using planChunksGo_flatten blocks [] 0

theorem planChunks_singleton {α : Type} (b : Block α) : planChunks [b] = [[b]] := by
  simp [planChunks, planChunksGo]

theorem process_translation_proj {α : Type} (llm : Llm) (il ol : LStr)
    (blocks : List (Block α)) :
    (process_translation llm il ol blocks).translated.map (fun tb => (tb.address, tb.text))
      = blocks.map (fun b => (b.address, b.text)) := by
  rw [process_translation_translated]
  calc ((planChunks blocks).map (fun ck => (processChunk llm il ol ck).1)).flatten.map
          (fun tb => (tb.address, tb.text))
      = ((planChunks blocks).map
          (fun ck => ((processChunk llm il ol ck).1).map (fun tb => (tb.address, tb.text)))).flatten := by
        rw [List.map_flatten, List.map_map]
        rfl
    _ = ((planChunks blocks).map (fun ck => ck.map (fun b => (b.address, b.text)))).flatten := by
        congr 1
        apply List.map_congr_left
        intro ck _
        rw [processChunk_fst, assignAt_proj]
    _ = ((planChunks blocks).flatten).map (fun b => (b.address, b.text)) := by
        rw [List.map_flatten]
    _ = blocks.map (fun b => (b.address, b.text)) := by rw [planChunks_flatten]

/-- C1: for every document, extraction order is preserved end to end: the
chunking loop never reorders or drops blocks across or within chunks (the
concatenation of the planned chunks is the original block sequence), the
translated blocks accumulated by process_translation carry the original
addresses and source texts in the original order, and the write pass of
update_blocks writes to exactly those addresses in that same order. -/
theorem order_preserved_end_to_end {α : Type} (llm : Llm) (il ol : LStr)
    (blocks : List (Block α)) :
    (planChunks blocks).flatten = blocks
    ∧ (process_translation llm il ol blocks).translated.map (fun tb => (tb.address, tb.text))
        = blocks.map (fun b => (b.address, b.text))
    ∧ (process_translation llm il ol blocks).writes.map Prod.fst = blocks.map Block.address := by
  refine ⟨planChunks_flatten blocks, process_translation_proj llm il ol blocks, ?_⟩
  rw [process_translation_writes]
  have h := congrArg (List.map Prod.fst) (process_translation_proj llm il ol blocks)
  simp only [update_blocks, List.map_map]
  simp only [List.map_map] at h
  convert h using 2

/-- C2: every block that enters the pipeline comes out of reconciliation with
translated_text set: the translated list has one entry per input block, and
each entry's translated_text is either one of the parts obtained from the
oracle response of its chunk or, as the fallback, the block's own source
text. -/
theorem fallback_completeness {α : Type} (llm : Llm) (il ol : LStr)
    (blocks : List (Block α)) :
    ((process_translation llm il ol blocks).translated).length = blocks.length
    ∧ ∀ tb ∈ (process_translation llm il ol blocks).translated,
        (∃ ck ∈ planChunks blocks, tb.translated_text ∈ chunkParts llm il ol ck)
        ∨ tb.translated_text = tb.text := by
  constructor
  · rw [process_translation_translated]
    conv_rhs => rw [← planChunks_flatten blocks]
    rw [List.length_flatten, List.length_flatten, List.map_map]
    congr 1
    apply List.map_congr_left
    intro ck _
    simpa using processChunk_length llm il ol ck
  · intro tb htb
    rw [process_translation_translated, List.mem_flatten] at htb
    obtain ⟨l, hl, htbl⟩ := htb
    rw [List.mem_map] at hl
    obtain ⟨ck, hck, rfl⟩ := hl
    rw [processChunk_fst] at htbl
    rcases assignAt_mem ck _ tb htbl with h | h
    · exact Or.inl ⟨ck, hck, h⟩
    · exact Or.inr h

/-- C2 witness: a concrete one-block run against an oracle that answers with
the single word X; the block's translated_text is one of the oracle parts of
its chunk. -/
theorem fallback_completeness_witness :
    (∃ ck ∈ planChunks [(⟨0, ['h', 'i']⟩ : Block Nat)],
        (⟨0, ['h', 'i'], ['X']⟩ : TBlock Nat).translated_text
          ∈ chunkParts (fun _ => Except.ok ['X']) ['E', 'S'] ['E', 'N'] ck)
    ∨ (⟨0, ['h', 'i'], ['X']⟩ : TBlock Nat).translated_text = ['h', 'i'] :=
  (fallback_completeness (fun _ => Except.ok ['X']) ['E', 'S'] ['E', 'N']
      [(⟨0, ['h', 'i']⟩ : Block Nat)]).2 ⟨0, ['h', 'i'], ['X']⟩ (by decide)

/-- C3: the chunking loop groups blocks greedily: nothing is dropped, split
or reordered (the chunks concatenate back to the input), every emitted chunk
is non-empty, and every chunk either fits the MAX_CHUNK_SIZE budget or is a
single block whose own text exceeds the budget, emitted alone. -/
theorem chunk_planner_bounds {α : Type} (blocks : List (Block α)) :
    (planChunks blocks).flatten = blocks
    ∧ ∀ ck ∈ planChunks blocks, ck ≠ [] ∧
        (chunkSize ck ≤ MAX_CHUNK_SIZE ∨ ∃ b, ck = [b] ∧ MAX_CHUNK_SIZE < b.text.length) := by
  refine ⟨planChunks_flatten blocks, ?_⟩
  intro ck hck
  have h := planChunksGo_sizes blocks [] 0 (Or.inl (by simp [chunkSize]))
    (by simp [chunkSize]) ck hck
  refine ⟨h.1, ?_⟩
  rcases h.2 with h2 | ⟨hlen, hlt⟩
  · exact Or.inl h2
  · right
    rcases List.length_eq_one.mp hlen with ⟨b, rfl⟩
    exact ⟨b, rfl, by simpa [chunkSize] using hlt⟩

/-- C3 witness: a single oversized block (10001 characters against the budget
of 10000) is emitted alone as a one-block chunk, never dropped. -/
theorem chunk_planner_bounds_witness :
    ([(⟨0, List.replicate 10001 'a'⟩ : Block Nat)] ≠ [])
    ∧ (chunkSize [(⟨0, List.replicate 10001 'a'⟩ : Block Nat)] ≤ MAX_CHUNK_SIZE
        ∨ ∃ b, [(⟨0, List.replicate 10001 'a'⟩ : Block Nat)] = [b]
            ∧ MAX_CHUNK_SIZE < b.text.length) :=
  (chunk_planner_bounds [(⟨0, List.replicate 10001 'a'⟩ : Block Nat)]).2
    [(⟨0, List.replicate 10001 'a'⟩ : Block Nat)]
    (by rw [planChunks_singleton]; exact List.mem_singleton.mpr rfl)

/-- C8: an empty block sequence short-circuits: process_translation returns
the explicit nothing-to-translate outcome with zero oracle calls, no
translated blocks and an empty write pass, and the chunking loop forms zero
chunks. -/
theorem empty_input_short_circuit {α : Type} (llm : Llm) (il ol : LStr) :
    process_translation llm il ol ([] : List (Block α))
        = ⟨[], 0, [], Outcome.nothingToTranslate⟩
    ∧ planChunks ([] : List (Block α)) = [] :=
  ⟨rfl, rfl⟩

theorem getD_of_getElem?_some {A : Type} {l : List A} {i : Nat} {a : A} (d : A)
    (h : l[i]? = some a) : l.getD i d = a := by
  rw [List.getD_eq_getElem?_getD, h, Option.getD_some]

theorem getD_of_getElem?_none {A : Type} {l : List A} {i : Nat} (d : A)
    (h : l[i]? = none) : l.getD i d = d := by
  rw [List.getD_eq_getElem?_getD, h, Option.getD_none]

/-- C4: with N blocks in a chunk and M parts split out of the oracle response,
reconciliation keeps exactly N blocks (extras beyond N are discarded), assigns
part i to block i wherever both exist (M = N and the M < N prefix and the
first N of an M > N response), lets every block past the overlap fall back to
its own source text, reports no warning when M = N and a warning when
M < N. -/
theorem reconcile_cardinality {α : Type} (llm : Llm) (il ol : LStr)
    (chunk : List (Block α)) :
    ((processChunk llm il ol chunk).1).length = chunk.length
    ∧ ((chunkParts llm il ol chunk).length = chunk.length →
        (processChunk llm il ol chunk).2 = false)
    ∧ ((chunkParts llm il ol chunk).length < chunk.length →
        (processChunk llm il ol chunk).2 = true)
    ∧ (∀ (i : Nat) (b : Block α) (p : LStr), chunk[i]? = some b →
        (chunkParts llm il ol chunk)[i]? = some p →
        ((processChunk llm il ol chunk).1)[i]? = some (⟨b.address, b.text, p⟩ : TBlock α))
    ∧ (∀ (i : Nat) (b : Block α), chunk[i]? = some b →
        (chunkParts llm il ol chunk)[i]? = none →
        ((processChunk llm il ol chunk).1)[i]? = some (⟨b.address, b.text, b.text⟩ : TBlock α)) := by
  refine ⟨processChunk_length llm il ol chunk, ?_, ?_, ?_, ?_⟩
  · intro h
    exact (processChunk_warn llm il ol chunk).mpr h
  · intro h
    rcases Bool.eq_false_or_eq_true (processChunk llm il ol chunk).2 with hw | hw
    · exact hw
    · exact absurd ((processChunk_warn llm il ol chunk).mp hw) (Nat.ne_of_lt h)
  · intro i b p hb hp
    rw [processChunk_fst, assignAt_getElem? chunk _ i b hb,
      getD_of_getElem?_some b.text hp]
  · intro i b hb hp
    rw [processChunk_fst, assignAt_getElem? chunk _ i b hb,
      getD_of_getElem?_none b.text hp]

/-- C4 witness: five blocks against a three-part response; block 0 gets part
0, block 3 falls back to its own text, and the warning is reported. -/
theorem reconcile_cardinality_witness :
    ((chunkParts (fun _ => Except.ok ['A', '\n', '-', '-', '-', '\n', 'B', '\n', '-', '-', '-', '\n', 'C'])
        ['E', 'S'] ['E', 'N']
        [(⟨0, ['u']⟩ : Block Nat), ⟨1, ['v']⟩, ⟨2, ['w']⟩, ⟨3, ['x']⟩, ⟨4, ['y']⟩]).length <
      ([(⟨0, ['u']⟩ : Block Nat), ⟨1, ['v']⟩, ⟨2, ['w']⟩, ⟨3, ['x']⟩, ⟨4, ['y']⟩]).length)
    ∧ (processChunk (fun _ => Except.ok ['A', '\n', '-', '-', '-', '\n', 'B', '\n', '-', '-', '-', '\n', 'C'])
        ['E', 'S'] ['E', 'N']
        [(⟨0, ['u']⟩ : Block Nat), ⟨1, ['v']⟩, ⟨2, ['w']⟩, ⟨3, ['x']⟩, ⟨4, ['y']⟩]).2 = true
    ∧ ((processChunk (fun _ => Except.ok ['A', '\n', '-', '-', '-', '\n', 'B', '\n', '-', '-', '-', '\n', 'C'])
        ['E', 'S'] ['E', 'N']
        [(⟨0, ['u']⟩ : Block Nat), ⟨1, ['v']⟩, ⟨2, ['w']⟩, ⟨3, ['x']⟩, ⟨4, ['y']⟩]).1)[0]?
        = some (⟨0, ['u'], ['A']⟩ : TBlock Nat)
    ∧ ((processChunk (fun _ => Except.ok ['A', '\n', '-', '-', '-', '\n', 'B', '\n', '-', '-', '-', '\n', 'C'])
        ['E', 'S'] ['E', 'N']
        [(⟨0, ['u']⟩ : Block Nat), ⟨1, ['v']⟩, ⟨2, ['w']⟩, ⟨3, ['x']⟩, ⟨4, ['y']⟩]).1)[3]?
        = some (⟨3, ['x'], ['x']⟩ : TBlock Nat) := by
  have hlt : (chunkParts (fun _ => Except.ok ['A', '\n', '-', '-', '-', '\n', 'B', '\n', '-', '-', '-', '\n', 'C'])
      ['E', 'S'] ['E', 'N']
      [(⟨0, ['u']⟩ : Block Nat), ⟨1, ['v']⟩, ⟨2, ['w']⟩, ⟨3, ['x']⟩, ⟨4, ['y']⟩]).length <
      ([(⟨0, ['u']⟩ : Block Nat), ⟨1, ['v']⟩, ⟨2, ['w']⟩, ⟨3, ['x']⟩, ⟨4, ['y']⟩]).length := by decide
  refine ⟨hlt, ?_, ?_, ?_⟩
  · exact (reconcile_cardinality (fun _ => Except.ok ['A', '\n', '-', '-', '-', '\n', 'B', '\n', '-', '-', '-', '\n', 'C'])
      ['E', 'S'] ['E', 'N'] [(⟨0, ['u']⟩ : Block Nat), ⟨1, ['v']⟩, ⟨2, ['w']⟩, ⟨3, ['x']⟩, ⟨4, ['y']⟩]).2.2.1 hlt
  · exact (reconcile_cardinality (fun _ => Except.ok ['A', '\n', '-', '-', '-', '\n', 'B', '\n', '-', '-', '-', '\n', 'C'])
      ['E', 'S'] ['E', 'N'] [(⟨0, ['u']⟩ : Block Nat), ⟨1, ['v']⟩, ⟨2, ['w']⟩, ⟨3, ['x']⟩, ⟨4, ['y']⟩]).2.2.2.1
      0 ⟨0, ['u']⟩ ['A'] (by decide) (by decide)
  · exact (reconcile_cardinality (fun _ => Except.ok ['A', '\n', '-', '-', '-', '\n', 'B', '\n', '-', '-', '-', '\n', 'C'])
      ['E', 'S'] ['E', 'N'] [(⟨0, ['u']⟩ : Block Nat), ⟨1, ['v']⟩, ⟨2, ['w']⟩, ⟨3, ['x']⟩, ⟨4, ['y']⟩]).2.2.2.2
      3 ⟨3, ['x']⟩ (by decide) (by decide)

/-- C5 counterexample: a chunk whose single block contains the delimiter
inside its text; the oracle call fails, translate_text_async falls back to the
chunk text, but the re-split finds the embedded delimiter, so the block
receives the fragment a instead of its own source text — refuting the claim
that on oracle failure every block of the chunk receives exactly its
source_text. -/
theorem delimiter_collision_counterexample :
    ((processChunk (fun _ => Except.error []) ['E', 'S'] ['E', 'N']
        [(⟨0, ['a', '\n', '-', '-', '-', '\n', 'b']⟩ : Block Nat)]).1)
      = [⟨0, ['a', '\n', '-', '-', '-', '\n', 'b'], ['a']⟩]
    ∧ (['a'] : LStr) ≠ ['a', '\n', '-', '-', '-', '\n', 'b'] :=
  ⟨rfl, by decide⟩

/-- C5 as amended: when the oracle call fails, translate_text_async absorbs
the exception and returns the chunk request text; every block still leaves
reconciliation with a translated_text and processing continues, and provided
no block text contains a newline character (so the joined text re-splits into
exactly the original texts), every block of the chunk receives exactly its own
source text. -/
theorem oracle_failure_chunk_fallback {α : Type} (llm : Llm) (il ol : LStr)
    (chunk : List (Block α)) (e : LStr)
    (hfail : llm (mkPrompt il ol (requestText chunk)) = Except.error e)
    (hne : chunk ≠ [])
    (hnl : ∀ b ∈ chunk, ∀ ch ∈ b.text, ch ≠ '\n') :
    translate_text_async (requestText chunk) il ol llm = requestText chunk
    ∧ (processChunk llm il ol chunk).1.map (fun tb => tb.translated_text)
        = chunk.map Block.text
    ∧ (processChunk llm il ol chunk).2 = false := by
  have htr : translate_text_async (requestText chunk) il ol llm = requestText chunk := by
    simp [translate_text_async, hfail]
  have hparts : chunkParts llm il ol chunk = chunk.map Block.text := by
    rw [chunkParts, htr, requestText]
    refine splitDelim_joinDelim _ (by simpa using hne) ?_
    intro t ht ch hc
    rw [List.mem_map] at ht
    obtain ⟨b, hb, rfl⟩ := ht
    exact hnl b hb ch hc
  refine ⟨htr, ?_, ?_⟩
  · rw [processChunk_fst, hparts]
    exact assignAt_translated_of_length_eq chunk _ (by simp)
  · rw [processChunk_warn, hparts]
    simp

/-- C5 amended witness: a concrete two-block chunk with newline-free texts
and a failing oracle; both blocks fall back to exactly their source texts and
no warning fires. -/
theorem oracle_failure_chunk_fallback_witness :
    translate_text_async (requestText [(⟨0, ['h', 'i']⟩ : Block Nat), ⟨1, ['y', 'o']⟩])
        ['E', 'S'] ['E', 'N'] (fun _ => Except.error ['x'])
      = requestText [(⟨0, ['h', 'i']⟩ : Block Nat), ⟨1, ['y', 'o']⟩]
    ∧ (processChunk (fun _ => Except.error ['x']) ['E', 'S'] ['E', 'N']
        [(⟨0, ['h', 'i']⟩ : Block Nat), ⟨1, ['y', 'o']⟩]).1.map (fun tb => tb.translated_text)
      = [(⟨0, ['h', 'i']⟩ : Block Nat), ⟨1, ['y', 'o']⟩].map Block.text
    ∧ (processChunk (fun _ => Except.error ['x']) ['E', 'S'] ['E', 'N']
        [(⟨0, ['h', 'i']⟩ : Block Nat), ⟨1, ['y', 'o']⟩]).2 = false :=
  oracle_failure_chunk_fallback (fun _ => Except.error ['x']) ['E', 'S'] ['E', 'N']
    [(⟨0, ['h', 'i']⟩ : Block Nat), ⟨1, ['y', 'o']⟩] ['x'] rfl (by decide) (by decide)

/-- C7 counterexample: a transport failure and a successful response that
echoes the input produce the same return value of translate_text_async, so
the value returned to the caller on transport failure is not distinguishable
from a successful oracle response. -/
theorem transport_failure_indistinguishable :
    translate_text_async ['h', 'i'] ['E', 'S'] ['E', 'N'] (fun _ => Except.error ['b'])
      = translate_text_async ['h', 'i'] ['E', 'S'] ['E', 'N'] (fun _ => Except.ok ['h', 'i']) :=
  rfl

/-- C7 as amended: on a transport-level oracle failure translate_text_async
catches the exception and returns the original input text as the fallback; the
caller receives a plain string, the same value a successful response echoing
the input would produce (the failure is only logged, not returned). -/
theorem transport_failure_returns_input (llm : Llm) (text il ol e : LStr)
    (hfail : llm (mkPrompt il ol text) = Except.error e) :
    translate_text_async text il ol llm = text := by
  simp [translate_text_async, hfail]

/-- C7 amended witness. -/
theorem transport_failure_returns_input_witness :
    translate_text_async ['h', 'i'] ['E', 'S'] ['E', 'N'] (fun _ => Except.error ['b'])
      = ['h', 'i'] :=
  transport_failure_returns_input (fun _ => Except.error ['b']) ['h', 'i']
    ['E', 'S'] ['E', 'N'] ['b'] rfl

theorem requestText_length {α : Type} (chunk : List (Block α)) (hne : chunk ≠ []) :
    (requestText chunk).length = chunkSize chunk + 5 * (chunk.length - 1) := by
  rw [requestText, joinDelim_length _ (by simpa using hne)]
  have h1 : ((chunk.map Block.text).map List.length).sum = chunkSize chunk := by
    rw [List.map_map]; rfl
  rw [h1, List.length_map]

theorem planChunks_pair {α : Type} (b1 b2 : Block α)
    (h : b1.text.length + b2.text.length ≤ MAX_CHUNK_SIZE) :
    planChunks [b1, b2] = [[b1, b2]] := by
  have h2 : ¬ (0 + b1.text.length + b2.text.length > MAX_CHUNK_SIZE) := by omega
  simp [planChunks, planChunksGo, h2]
  omega

/-- C9: the request text sent to the oracle for a chunk is the block texts
joined with the 5-character delimiter, so its length is the chunk size plus
five per boundary; hence a multi-block chunk that passes the budget check
(which counts only the block text lengths) can produce a request text longer
than MAX_CHUNK_SIZE, exhibited by two 5000-character blocks against the
10000-character budget. -/
theorem request_exceeds_budget {α : Type} :
    (∀ chunk : List (Block α), chunk ≠ [] →
        (requestText chunk).length = chunkSize chunk + 5 * (chunk.length - 1))
    ∧ ∃ (blocks ck : List (Block Nat)),
        planChunks blocks = [ck] ∧ chunkSize ck ≤ MAX_CHUNK_SIZE ∧ 2 ≤ ck.length
        ∧ MAX_CHUNK_SIZE < (requestText ck).length := by
  refine ⟨fun chunk hne => requestText_length chunk hne, ?_⟩
  refine ⟨[⟨0, List.replicate 5000 'a'⟩, ⟨1, List.replicate 5000 'a'⟩],
          [⟨0, List.replicate 5000 'a'⟩, ⟨1, List.replicate 5000 'a'⟩], ?_, ?_, ?_, ?_⟩
  · refine planChunks_pair _ _ ?_
    simp only [List.length_replicate, MAX_CHUNK_SIZE]
    omega
  · simp only [chunkSize, List.map_cons, List.map_nil, List.sum_cons, List.sum_nil,
      List.length_replicate, MAX_CHUNK_SIZE]
    omega
  · simp only [List.length_cons, List.length_nil]
    omega
  · rw [requestText_length _ (List.cons_ne_nil _ _)]
    simp only [chunkSize, List.map_cons, List.map_nil, List.sum_cons, List.sum_nil,
      List.length_replicate, List.length_cons, List.length_nil, MAX_CHUNK_SIZE]
    omega

/-- C9 witness: the length formula applied to a concrete two-block chunk. -/
theorem request_exceeds_budget_witness :
    (requestText [(⟨0, ['h', 'i']⟩ : Block Nat), ⟨1, ['y', 'o']⟩]).length
      = chunkSize [(⟨0, ['h', 'i']⟩ : Block Nat), ⟨1, ['y', 'o']⟩]
        + 5 * ([(⟨0, ['h', 'i']⟩ : Block Nat), ⟨1, ['y', 'o']⟩].length - 1) :=
  (request_exceeds_budget (α := Nat)).1
    [(⟨0, ['h', 'i']⟩ : Block Nat), ⟨1, ['y', 'o']⟩] (by decide)

/-- C6 counterexample: the extractors do not apply the trimmed-text filter the
claim states.  A docx paragraph whose text is a single space has empty trimmed
text, yet DocxTranslator.read_document extracts it as a block; likewise a pptx
shape whose text is a single space is extracted because the code only tests
truthiness of the raw text. -/
theorem extractor_no_trim_counterexample :
    DocxTranslator.read_document [[' ']] = [⟨0, [' ']⟩]
    ∧ pyStrip [' '] = []
    ∧ (⟨(0, 0), [' ']⟩ : Block (Nat × Nat)) ∈ PptxTranslator.read_document [[some [' ']]] := by
  refine ⟨rfl, rfl, ?_⟩
  decide

/-- C6 as amended: DocxTranslator.read_document extracts every paragraph as a
block, in order, addressed by its index, with no emptiness or trimming filter;
PptxTranslator.read_document extracts a shape if and only if it has a text
attribute and its raw text is non-empty — no trimming is applied, so
whitespace-only texts pass the filter. -/
theorem extractor_inclusion_rule :
    (∀ paragraphs : List LStr,
        (DocxTranslator.read_document paragraphs).map Block.text = paragraphs
        ∧ (DocxTranslator.read_document paragraphs).map Block.address
            = List.range paragraphs.length)
    ∧ ∀ (slides : List (List (Option LStr))) (b : Block (Nat × Nat)),
        b ∈ PptxTranslator.read_document slides
          ↔ ∃ shapes, slides[b.address.1]? = some shapes
              ∧ shapes[b.address.2]? = some (some b.text) ∧ b.text ≠ [] := by
  constructor
  · intro paragraphs
    constructor
    · rw [DocxTranslator.read_document, List.map_map]
      exact List.enum_map_snd paragraphs
    · rw [DocxTranslator.read_document, List.map_map]
      exact List.enum_map_fst paragraphs
  · intro slides b
    obtain ⟨⟨a1, a2⟩, t⟩ := b
    simp only [PptxTranslator.read_document, List.mem_flatMap, List.mem_filterMap]
    constructor
    · rintro ⟨s, hs, sh, hsh, hmatch⟩
      rcases sh with ⟨shi, sht⟩
      cases sht with
      | none => simp at hmatch
      | some u =>
        have hmatch2 : (if u ≠ [] then some (⟨(s.1, shi), u⟩ : Block (Nat × Nat)) else none)
            = some (⟨(a1, a2), t⟩ : Block (Nat × Nat)) := hmatch
        by_cases hu : u ≠ []
        · rw [if_pos hu] at hmatch2
          injection hmatch2 with heq
          have haddr : (s.1, shi) = (a1, a2) := congrArg Block.address heq
          have htext : u = t := congrArg Block.text heq
          have ha1 : s.1 = a1 := congrArg Prod.fst haddr
          have ha2 : shi = a2 := congrArg Prod.snd haddr
          refine ⟨s.2, ?_, ?_, ?_⟩
          · rw [← ha1]
            exact List.mem_enum_iff_getElem?.mp hs
          · rw [← ha2, ← htext]
            exact List.mem_enum_iff_getElem?.mp hsh
          · rw [← htext]; exact hu
        · rw [if_neg hu] at hmatch2
          exact absurd hmatch2 (by simp)
    · rintro ⟨shapes, h1, h2, h3⟩
      refine ⟨(a1, shapes), List.mem_enum_iff_getElem?.mpr h1, (a2, some t),
        List.mem_enum_iff_getElem?.mpr h2, ?_⟩
      show (if t ≠ [] then some (⟨(a1, a2), t⟩ : Block (Nat × Nat)) else none)
        = some (⟨(a1, a2), t⟩ : Block (Nat × Nat))
      rw [if_pos h3]

/-- C6 amended witness: every docx paragraph is extracted as-is, and a
whitespace-only pptx shape is extracted because its raw text is non-empty. -/
theorem extractor_inclusion_rule_witness :
    (DocxTranslator.read_document [['a'], []]).map Block.text = [['a'], []]
    ∧ ((⟨(0, 0), [' ']⟩ : Block (Nat × Nat)) ∈ PptxTranslator.read_document [[some [' ']]]) :=
  ⟨(extractor_inclusion_rule.1 [['a'], []]).1,
    (extractor_inclusion_rule.2 [[some [' ']]] ⟨(0, 0), [' ']⟩).mpr
      ⟨[some [' ']], by decide, by decide, by decide⟩⟩

end Lebab

namespace Jsontest

theorem conformsFields_names :
    ∀ (sig : List (String × DCType)) (fs : List (String × DCVal)),
      conformsFields sig fs = true → sig.map Prod.fst = fs.map Prod.fst := by
  intro sig
  induction sig with
  | nil =>
    intro fs h
    cases fs with
    | nil => rfl
    | cons q fs => simp [conformsFields] at h
  | cons p sig ih =>
    intro fs h
    rcases p with ⟨n, t⟩
    cases fs with
    | nil => simp [conformsFields] at h
    | cons q fs =>
      rcases q with ⟨m, v⟩
      simp only [conformsFields, Bool.and_eq_true, beq_iff_eq] at h
      obtain ⟨⟨hnm, _⟩, hcf⟩ := h
      simp [hnm, ih fs hcf]

theorem roundtrip_aux (N : Nat) :
    (∀ (t : DCType) (v : DCVal), sizeOf v ≤ N → wfType t = true → conforms t v = true →
      deserialize_dataclass t (serialize_dataclass v) = some v)
    ∧ (∀ (sig : List (String × DCType)) (fs : List (String × DCVal))
        (data : List (String × JsonVal)),
        sizeOf fs ≤ N → wfSig sig = true → distinctNames (fs.map Prod.fst) = true →
        conformsFields sig fs = true →
        (∀ m, m ∈ sig.map Prod.fst → jlookup m data = jlookup m (serializeFields fs)) →
        deserializeFields sig data = some fs) := by
  induction N using Nat.strong_induction_on with
  | _ N ih =>
    constructor
    · intro t v hsz hw hc
      cases t with
      | prim =>
        cases v with
        | vprim p => simp [serialize_dataclass, deserialize_dataclass]
        | inst fs => simp [conforms] at hc
      | dc sig =>
        cases v with
        | vprim p => simp [conforms] at hc
        | inst fs =>
          have hcf : conformsFields sig fs = true := by
            simpa [conforms] using hc
          have hwf : distinctNames (sig.map Prod.fst) = true ∧ wfSig sig = true := by
            simpa [wfType, Bool.and_eq_true] using hw
          have hdn : distinctNames (fs.map Prod.fst) = true := by
            rw [← conformsFields_names sig fs hcf]; exact hwf.1
          have hszf : sizeOf fs < N := by
            have hspec : sizeOf (DCVal.inst fs) = 1 + sizeOf fs := by simp
            omega
          have hrec := (ih (sizeOf fs) hszf).2 sig fs (serializeFields fs) (le_refl _)
            hwf.2 hdn hcf (fun m _ => rfl)
          simp [serialize_dataclass, deserialize_dataclass, hrec]
    · intro sig fs data hsz hw hdn hcf hdata
      cases sig with
      | nil =>
        cases fs with
        | nil => simp [deserializeFields]
        | cons q fs => simp [conformsFields] at hcf
      | cons p sig =>
        rcases p with ⟨n, t⟩
        cases fs with
        | nil => simp [conformsFields] at hcf
        | cons q fs =>
          rcases q with ⟨m, v⟩
          simp only [conformsFields, Bool.and_eq_true, beq_iff_eq] at hcf
          obtain ⟨⟨hnm, hcv⟩, hcf2⟩ := hcf
          subst hnm
          have hw2 : wfType t = true ∧ wfSig sig = true := by
            simpa [wfSig, Bool.and_eq_true] using hw
          have hdn2 : ((fs.map Prod.fst).contains n = false)
              ∧ distinctNames (fs.map Prod.fst) = true := by
            simpa [distinctNames, Bool.and_eq_true] using hdn
          have hl : jlookup n data = some (serialize_dataclass v) := by
            rw [hdata n (by simp)]
            simp [serializeFields, jlookup]
          have hszv : sizeOf v < N := by
            have hspec : sizeOf ((n, v) :: fs) = 1 + (1 + sizeOf n + sizeOf v) + sizeOf fs := by
              simp
            omega
          have hszf : sizeOf fs < N := by
            have hspec : sizeOf ((n, v) :: fs) = 1 + (1 + sizeOf n + sizeOf v) + sizeOf fs := by
              simp
            omega
          have hv := (ih (sizeOf v) hszv).1 t v (le_refl _) hw2.1 hcv
          have hdata2 : ∀ m2, m2 ∈ sig.map Prod.fst →
              jlookup m2 data = jlookup m2 (serializeFields fs) := by
            intro m2 hm2
            have hm2fs : m2 ∈ fs.map Prod.fst := by
              rw [← conformsFields_names sig fs hcf2]; exact hm2
            have hne : m2 ≠ n := by
              intro hEq
              subst hEq
              have : (fs.map Prod.fst).elem m2 = true := List.elem_iff.mpr hm2fs
              have hcontains : (fs.map Prod.fst).contains m2 = true := this
              rw [hdn2.1] at hcontains
              exact Bool.false_ne_true hcontains
            rw [hdata m2 (by simp [hm2])]
            simp [serializeFields, jlookup, hne]
          have htail := (ih (sizeOf fs) hszf).2 sig fs data (le_refl _) hw2.2 hdn2.2
            hcf2 hdata2
          simp [deserializeFields, hl, hv, htail]

/-- C10: deserializing the JSON serialization reconstructs the value: for
every dataclass shape t with distinct field names at every level and every
value v of that shape, deserialize_dataclass applied to the json round-trip of
serialize_dataclass of v returns exactly v. -/
theorem dataclass_json_roundtrip (t : DCType) (v : DCVal)
    (hw : wfType t = true) (hc : conforms t v = true) :
    deserialize_dataclass t (json_dumps_loads (serialize_dataclass v)) = some v :=
  (roundtrip_aux (sizeOf v)).1 t v (le_refl _) hw hc

/-- C10 witness: the Example instance of jsontest.py,
Example(name="Test", nested=ExampleNested(value=42)), survives the round
trip, as the assert at the end of jsontest.py checks. -/
theorem dataclass_json_roundtrip_witness :
    wfType exampleTy = true ∧ conforms exampleTy exampleVal = true
    ∧ deserialize_dataclass exampleTy (json_dumps_loads (serialize_dataclass exampleVal))
        = some exampleVal :=
  ⟨by decide, by decide, dataclass_json_roundtrip exampleTy exampleVal (by decide) (by decide)⟩

end Jsontest
